import Mathlib

/-!
Verification of `daisy` (`src/daisy/__init__.py`): the LTree-to-dask
compiler `ltree_to_dask` / `_ltree_to_dask`, together with the
`register_get` / `autodaskthunk` executor surface.

Embedding conventions:
* LTree node objects live in an arena (`Arena`); a node is referenced by
  its arena index, which models Python object identity (the source keys
  its `scope` dict on the node object itself).
* `str(uuid4())` key generation is modelled as a draw from an injective
  key supply `g : Nat → Key` applied to a per-compilation counter; the
  canonical supply is `genId`.  The cosmetic `'%s-' % node.func` name
  fragment carries no identity in the source (uniqueness comes from the
  uuid alone) and is not modelled.
* The recursion of `_ltree_to_dask` is made total with fuel; the driver
  passes fuel `a.size`, which is proved sufficient for every acyclic
  input (claim C7).
-/

namespace Daisy

/-- Python values stored in `Normal` leaves and in the produced graph.
`pyFun` is an opaque function object named by a string; the reference
executor knows how to apply the function named `add`. -/
inductive PyVal where
  | pyInt : Int → PyVal
  | pyFun : String → PyVal
  deriving DecidableEq

/-- The payload of one LTree node, after `lazy.tree`:
`Normal` wraps a concrete value; `Call` holds the callee node, the
ordered positional argument nodes, and the keyword arguments as the
ordered association list underlying the Python dict (insertion order).
`Other` models a node object of a type with no `_ltree_to_dask.register`
rule (it hits the `singledispatch` fallback). -/
inductive NodeData where
  | Normal (value : PyVal)
  | Call (func : Nat) (args : List Nat) (kwargs : List (String × Nat))
  | Other (tag : String)
  deriving DecidableEq

/-- The arena of LTree node objects; a node is referenced by its index. -/
structure Arena where
  nodes : List NodeData
  deriving DecidableEq

def nth {α : Type} : List α → Nat → Option α
  | [], _ => none
  | x :: _, 0 => some x
  | _ :: xs, n + 1 => nth xs n

def Arena.get (a : Arena) (i : Nat) : Option NodeData := nth a.nodes i

def Arena.size (a : Arena) : Nat := a.nodes.length

/-- Graph keys.  In the source a key is the string `str(uuid4())`
(respectively `'%s-%s' % (node.func, uuid4())`): a fresh token per
allocation, assumed collision free.  We model the uuid stream as `g c`
for an injective supply `g` and a per-compilation counter `c`. -/
abbrev Key := Nat

/-- The canonical key supply: the counter itself. -/
def genId : Nat → Key := fun i => i

/-- One entry of the produced dask graph: either a plain value
(`dask[name] = node.value`) or an apply task
`(apply, callee_key, [arg keys], (dict, [[kw, key], ...]))`. -/
inductive Descr where
  | Literal (v : PyVal)
  | Apply (callee : Key) (args : List Key) (kwargs : List (String × Key))
  deriving DecidableEq

/-- The dask graph: the Python dict `dask`, as an insertion-ordered
association list (every inserted key is fresh, so order is faithful). -/
abbrev Graph := List (Key × Descr)

/-- The memo table `scope`: node identity (arena index) to key. -/
abbrev Scope := List (Nat × Key)

/-- Association-list lookup (Python `d[k]`, first match wins; inserts
are modelled by prepending, matching dict overwrite semantics). -/
def alook {β : Type} (k : Nat) : List (Nat × β) → Option β
  | [] => none
  | p :: rest => if k = p.1 then some p.2 else alook k rest

/-- The mutable state threaded through `_ltree_to_dask`: the `dask`
dict, the `scope` dict and the key-supply counter. -/
structure CState where
  dask : Graph
  scope : Scope
  counter : Nat
  deriving DecidableEq

/-- Errors of the compilation: the `singledispatch` fallback
`NotImplementedError` (the spec's `UnsupportedNodeKind`), and fuel
exhaustion (impossible on acyclic input, see claim C7). -/
inductive CompErr where
  | unsupportedNodeKind (nid : Nat)
  | outOfFuel
  deriving DecidableEq

/-- `list(map(retrieve, node.args))`: resolve each positional argument
in order, threading the state. -/
def mapRetrieve (retr : Nat → CState → Except CompErr (Key × CState)) :
    List Nat → CState → Except CompErr (List Key × CState)
  | [], s => .ok ([], s)
  | c :: cs, s =>
    match retr c s with
    | .error e => .error e
    | .ok (k, s1) =>
      match mapRetrieve retr cs s1 with
      | .error e => .error e
      | .ok (ks, s2) => .ok (k :: ks, s2)

/-- `valmap(retrieve, node.kwargs).items()`: resolve each keyword
argument value in the dict's iteration (= insertion) order. -/
def mapRetrieveKw (retr : Nat → CState → Except CompErr (Key × CState)) :
    List (String × Nat) → CState → Except CompErr (List (String × Key) × CState)
  | [], s => .ok ([], s)
  | p :: ps, s =>
    match retr p.2 s with
    | .error e => .error e
    | .ok (k, s1) =>
      match mapRetrieveKw retr ps s1 with
      | .error e => .error e
      | .ok (ks, s2) => .ok ((p.1, k) :: ks, s2)

/-- The body of the closure `retrieve(term)` of the `Call` rule:
`try: return scope[term] except KeyError: scope[term] = ret =
_ltree_to_dask(term, dask, scope); return ret`, abstracted over the
recursive reference to `_ltree_to_dask`. -/
def retrieveWith (recf : Nat → CState → Except CompErr (Key × CState))
    (c : Nat) (s : CState) : Except CompErr (Key × CState) :=
  match alook c s.scope with
  | some k => .ok (k, s)
  | none =>
    match recf c s with
    | .error e => .error e
    | .ok (k, s1) => .ok (k, ⟨s1.dask, (c, k) :: s1.scope, s1.counter⟩)

/-- The dispatch function `_ltree_to_dask(node, dask, scope)`.

* unknown object (`Other`, or a dangling index): the `singledispatch`
  fallback raises (`unsupportedNodeKind`);
* `Normal`: `try: return scope[node] except: name = str(uuid4());
  dask[name] = node.value; return name` — note that it never writes to
  `scope`;
* `Call`: draw `name` first (the uuid in
  `'%s-%s' % (node.func, uuid4())` is drawn before the recursive
  retrievals), then resolve the callee, the positional arguments and
  the keyword arguments through the closure `retrieve`, then store the
  apply task and `scope[node] = name`. -/
def ltree_to_dask_rec (a : Arena) (g : Nat → Key) :
    Nat → Nat → CState → Except CompErr (Key × CState)
  | 0, _, _ => .error .outOfFuel
  | fuel + 1, nid, st =>
    match a.get nid with
    | none => .error (.unsupportedNodeKind nid)
    | some (.Other _) => .error (.unsupportedNodeKind nid)
    | some (.Normal v) =>
      match alook nid st.scope with
      | some k => .ok (k, st)
      | none =>
        .ok (g st.counter,
          ⟨st.dask ++ [(g st.counter, .Literal v)], st.scope, st.counter + 1⟩)
    | some (.Call f args kwargs) =>
      match retrieveWith (fun c s => ltree_to_dask_rec a g fuel c s) f
          ⟨st.dask, st.scope, st.counter + 1⟩ with
      | .error e => .error e
      | .ok (kf, st2) =>
        match mapRetrieve (retrieveWith (fun c s => ltree_to_dask_rec a g fuel c s))
            args st2 with
        | .error e => .error e
        | .ok (kas, st3) =>
          match mapRetrieveKw (retrieveWith (fun c s => ltree_to_dask_rec a g fuel c s))
              kwargs st3 with
          | .error e => .error e
          | .ok (kkws, st4) =>
            .ok (g st.counter,
              ⟨st4.dask ++ [(g st.counter, .Apply kf kas kkws)],
               (nid, g st.counter) :: st4.scope, st4.counter⟩)

/-- The closure `retrieve(term)` of the `Call` rule, tied to the
dispatch function at a given fuel. -/
def retrieve (a : Arena) (g : Nat → Key) (fuel : Nat) :
    Nat → CState → Except CompErr (Key × CState) :=
  retrieveWith (fun c s => ltree_to_dask_rec a g fuel c s)

/-- The driver `ltree_to_dask(node)`: fresh empty `dask` and `scope`,
one direct call of the dispatch function on the root, returning the
graph and the root key; parametrized by the key supply. -/
def ltree_to_daskW (g : Nat → Key) (a : Arena) (root : Nat) :
    Except CompErr (Graph × Key) :=
  match ltree_to_dask_rec a g a.size root ⟨[], [], 0⟩ with
  | .error e => .error e
  | .ok (k, st) => .ok (st.dask, k)

/-- `ltree_to_dask` with the canonical key supply. -/
def ltree_to_dask (a : Arena) (root : Nat) : Except CompErr (Graph × Key) :=
  ltree_to_daskW genId a root

/-- Apply a resolved callee value to resolved arguments; the minimal
reference executor knows the binary function `add` on integers. -/
def applyPy : PyVal → List PyVal → List (String × PyVal) → Option PyVal
  | .pyFun "add", [.pyInt x, .pyInt y], [] => some (.pyInt (x + y))
  | _, _, _ => none

def execList (ex : Key → Option PyVal) : List Key → Option (List PyVal)
  | [] => some []
  | k :: ks =>
    match ex k, execList ex ks with
    | some v, some vs => some (v :: vs)
    | _, _ => none

def execKw (ex : Key → Option PyVal) :
    List (String × Key) → Option (List (String × PyVal))
  | [] => some []
  | p :: ps =>
    match ex p.2, execKw ex ps with
    | some v, some vs => some ((p.1, v) :: vs)
    | _, _ => none

/-- Minimal reference executor over a produced graph (the role of
`dask.get`): a `Literal` resolves to its value, an `Apply` resolves the
callee, the positional and the keyword argument keys and applies. -/
def execKey (gr : Graph) : Nat → Key → Option PyVal
  | 0, _ => none
  | fuel + 1, k =>
    match alook k gr with
    | none => none
    | some (.Literal v) => some v
    | some (.Apply cf argks kwks) =>
      match execKey gr fuel cf, execList (execKey gr fuel) argks,
          execKw (execKey gr fuel) kwks with
      | some c, some vs, some kws => applyPy c vs kws
      | _, _, _ => none

/-- Children of a node: the callee, the positional arguments and the
keyword argument values (the edges of the input DAG). -/
def childIds : NodeData → List Nat
  | .Normal _ => []
  | .Call f args kwargs => f :: (args ++ kwargs.map Prod.snd)
  | .Other _ => []

/-- Well-formed arena: every edge goes to a strictly smaller index.
Every finite acyclic node DAG can be arena-numbered this way (a
topological numbering), so this captures exactly the spec's
precondition `finite and acyclic`. -/
def Arena.Wf (a : Arena) : Prop :=
  ∀ i hd, a.get i = some hd → ∀ c ∈ childIds hd, c < i

/-- Executable check for `Arena.Wf`. -/
def wfB (a : Arena) : Bool :=
  (List.range a.size).all fun i =>
    match a.get i with
    | some hd => (childIds hd).all fun c => decide (c < i)
    | none => true

/-- A node has a registered compilation rule (`Normal` or `Call`). -/
def registeredAt (a : Arena) (n : Nat) : Bool :=
  match a.get n with
  | some (.Normal _) => true
  | some (.Call _ _ _) => true
  | _ => false

/-- Reachability along the DAG edges, from the root downwards. -/
inductive Reachable (a : Arena) : Nat → Nat → Prop where
  | refl (n : Nat) : Reachable a n n
  | step (n c m : Nat) (hd : NodeData) : a.get n = some hd →
      c ∈ childIds hd → Reachable a c m → Reachable a n m

/-- Every node reachable from `n` has a registered rule. -/
def RegFrom (a : Arena) (n : Nat) : Prop :=
  ∀ m, Reachable a n m → registeredAt a m = true

/-- Executable check: every arena slot has a registered rule. -/
def allRegB (a : Arena) : Bool :=
  (List.range a.size).all fun i => registeredAt a i

section Lemmas

theorem nth_some_lt {α : Type} {l : List α} {i : Nat} {x : α}
    (h : nth l i = some x) : i < l.length := by
  induction l generalizing i with
  | nil => simp [nth] at h
  | cons y ys ih =>
    cases i with
    | zero => simp
    | succ j =>
      simp only [nth] at h
      have := ih h
      simpa using Nat.succ_lt_succ this

theorem wf_of_wfB {a : Arena} (h : wfB a = true) : a.Wf := by
  intro i hd hget c hc
  have hi : i < a.size := nth_some_lt hget
  have h1 := List.all_eq_true.mp h i (List.mem_range.mpr hi)
  rw [hget] at h1
  have h2 := List.all_eq_true.mp h1 c hc
  exact of_decide_eq_true h2

theorem reachable_lt {a : Arena} (hw : a.Wf) {n m : Nat}
    (h : Reachable a n m) (hn : n < a.size) : m < a.size := by
  induction h with
  | refl => exact hn
  | step n c m hd hget hc _ ih =>
    exact ih (Nat.lt_trans (hw n hd hget c hc) (nth_some_lt hget))

theorem regFrom_of_allRegB {a : Arena} (hw : a.Wf) {root : Nat}
    (hroot : root < a.size) (h : allRegB a = true) : RegFrom a root := by
  intro m hm
  have hmlt : m < a.size := reachable_lt hw hm hroot
  exact List.all_eq_true.mp h m (List.mem_range.mpr hmlt)

theorem alook_append_some {β : Type} {l : List (Nat × β)} {k : Nat} {v : β}
    (h : alook k l = some v) (l2 : List (Nat × β)) :
    alook k (l ++ l2) = some v := by
  induction l with
  | nil => simp [alook] at h
  | cons p rest ih =>
    simp only [alook, List.cons_append] at h ⊢
    by_cases hk : k = p.1
    · simpa [hk] using h
    · simp only [hk, if_false] at h ⊢
      exact ih h

theorem alook_append_fresh {β : Type} {l : List (Nat × β)} {k : Nat}
    (h : ∀ p ∈ l, p.1 ≠ k) (l2 : List (Nat × β)) :
    alook k (l ++ l2) = alook k l2 := by
  induction l with
  | nil => simp
  | cons p rest ih =>
    have hp : p.1 ≠ k := h p (List.mem_cons_self p rest)
    have hk : k ≠ p.1 := fun hk => hp hk.symm
    simp only [List.cons_append, alook, if_neg hk]
    exact ih fun q hq => h q (List.mem_cons_of_mem p hq)

theorem alook_mem {β : Type} {l : List (Nat × β)} {k : Nat} {v : β}
    (h : alook k l = some v) : (k, v) ∈ l := by
  induction l with
  | nil => simp [alook] at h
  | cons p rest ih =>
    obtain ⟨pk, pv⟩ := p
    simp only [alook] at h
    by_cases hk : k = pk
    · subst hk
      rw [if_pos rfl] at h
      injection h with h2
      subst h2
      exact List.mem_cons_self _ _
    · rw [if_neg hk] at h
      exact List.mem_cons_of_mem _ (ih h)

theorem alook_isSome_mem_keys {β : Type} {l : List (Nat × β)} {k : Nat} {v : β}
    (h : alook k l = some v) : k ∈ l.map Prod.fst := by
  have := alook_mem h
  exact List.mem_map.mpr ⟨(k, v), this, rfl⟩

theorem alook_of_mem_nodup {β : Type} {l : List (Nat × β)} {k : Nat} {v : β}
    (hnd : (l.map Prod.fst).Nodup) (h : (k, v) ∈ l) : alook k l = some v := by
  induction l with
  | nil => simp at h
  | cons p rest ih =>
    rcases List.mem_cons.mp h with h | h
    · simp [alook, h.symm]
    · have hnd2 : (rest.map Prod.fst).Nodup := (List.nodup_cons.mp hnd).2
      have hk : k ≠ p.1 := by
        intro hk
        have : p.1 ∈ rest.map Prod.fst :=
          List.mem_map.mpr ⟨(k, v), h, by rw [hk]⟩
        exact (List.nodup_cons.mp hnd).1 this
      simp only [alook, hk, if_false]
      exact ih hnd2 h

theorem nodup_snoc {l : List Nat} {a : Nat} (h : l.Nodup) (ha : a ∉ l) :
    (l ++ [a]).Nodup := by
  simp [List.nodup_append, h, ha]

theorem forall2_mem_right {α β : Type} {R : α → β → Prop} {l1 : List α}
    {l2 : List β} (h : List.Forall₂ R l1 l2) {b : β} (hb : b ∈ l2) :
    ∃ x ∈ l1, R x b := by
  induction h with
  | nil => simp at hb
  | cons hR _ ih =>
    rcases List.mem_cons.mp hb with hb | hb
    · exact ⟨_, List.mem_cons_self _ _, hb ▸ hR⟩
    · obtain ⟨x, hx, hxb⟩ := ih hb
      exact ⟨x, List.mem_cons_of_mem _ hx, hxb⟩

end Lemmas

/-! ### The compilation invariant -/

/-- Monotone evolution of the compilation state: the graph only grows
at the end and memoized scope bindings are never changed. -/
def SMono (st st1 : CState) : Prop :=
  (∃ l, st1.dask = st.dask ++ l) ∧
  (∀ n k, alook n st.scope = some k → alook n st1.scope = some k)

/-- State evolution across one compilation step: the graph grows at the
end with keys drawn at or above the current counter, the counter never
decreases, and scope bindings persist. -/
def StExt (st st1 : CState) : Prop :=
  (∃ l, st1.dask = st.dask ++ l ∧ ∀ p ∈ l, st.counter ≤ p.1) ∧
  st.counter ≤ st1.counter ∧
  (∀ n k, alook n st.scope = some k → alook n st1.scope = some k)

theorem StExt.refl (st : CState) : StExt st st :=
  ⟨⟨[], by simp, by simp⟩, Nat.le_refl _, fun _ _ h => h⟩

theorem StExt.extTrans {s1 s2 s3 : CState} (h1 : StExt s1 s2) (h2 : StExt s2 s3) :
    StExt s1 s3 := by
  obtain ⟨⟨l1, hd1, hk1⟩, hc1, hs1⟩ := h1
  obtain ⟨⟨l2, hd2, hk2⟩, hc2, hs2⟩ := h2
  refine ⟨⟨l1 ++ l2, by rw [hd2, hd1, List.append_assoc], ?_⟩,
    Nat.le_trans hc1 hc2, fun n k h => hs2 n k (hs1 n k h)⟩
  intro p hp
  rcases List.mem_append.mp hp with hp | hp
  · exact hk1 p hp
  · exact Nat.le_trans hc1 (hk2 p hp)

theorem StExt.smono {st st1 : CState} (h : StExt st st1) : SMono st st1 :=
  ⟨⟨h.1.choose, h.1.choose_spec.1⟩, h.2.2⟩

theorem SMono.monoTrans {s1 s2 s3 : CState} (h1 : SMono s1 s2) (h2 : SMono s2 s3) :
    SMono s1 s3 := by
  obtain ⟨⟨l1, hd1⟩, hs1⟩ := h1
  obtain ⟨⟨l2, hd2⟩, hs2⟩ := h2
  exact ⟨⟨l1 ++ l2, by rw [hd2, hd1, List.append_assoc]⟩,
    fun n k h => hs2 n k (hs1 n k h)⟩

/-- The graph entry stored for node `n` under key `k` is exactly what
the registered rule for `n`'s variant builds, with every dependency key
being the scope binding of the corresponding child node.  This is the
shape invariant delivering CSE: all references to a child go through
its unique scope binding. -/
def EntryCoherent (a : Arena) (st : CState) (n : Nat) (k : Key) : Prop :=
  match a.get n with
  | some (.Normal v) => alook k st.dask = some (.Literal v)
  | some (.Call f args kwargs) =>
      ∃ kf kas kkws,
        alook k st.dask = some (.Apply kf kas kkws) ∧
        alook f st.scope = some kf ∧
        List.Forall₂ (fun c kc => alook c st.scope = some kc) args kas ∧
        List.Forall₂ (fun p q => p.1 = q.1 ∧ alook p.2 st.scope = some q.2)
          kwargs kkws
  | _ => False

theorem EntryCoherent.mono {a : Arena} {st st1 : CState} {n : Nat} {k : Key}
    (h : EntryCoherent a st n k) (hm : SMono st st1) :
    EntryCoherent a st1 n k := by
  obtain ⟨⟨l, hd⟩, hs⟩ := hm
  unfold EntryCoherent at h ⊢
  cases hget : a.get n with
  | none => rw [hget] at h; exact h
  | some nd =>
    rw [hget] at h
    cases nd with
    | Normal v => rw [hd]; exact alook_append_some h l
    | Call f args kwargs =>
      obtain ⟨kf, kas, kkws, h1, h2, h3, h4⟩ := h
      refine ⟨kf, kas, kkws, ?_, hs f kf h2, ?_, ?_⟩
      · rw [hd]; exact alook_append_some h1 l
      · exact h3.imp fun c kc hc => hs c kc hc
      · exact h4.imp fun p q hpq => ⟨hpq.1, hs p.2 q.2 hpq.2⟩
    | Other t => exact h.elim

/-- The standing invariant on the compilation state. -/
structure StInv (a : Arena) (st : CState) : Prop where
  daskLt : ∀ p ∈ st.dask, p.1 < st.counter
  scopeLt : ∀ n k, alook n st.scope = some k → k < st.counter
  keysNodup : (st.dask.map Prod.fst).Nodup
  coherent : ∀ n k, alook n st.scope = some k → EntryCoherent a st n k
  regscope : ∀ n k, alook n st.scope = some k → RegFrom a n
  cover : ∀ p ∈ st.dask, (∃ v, p.2 = Descr.Literal v) ∨
    ∃ n, alook n st.scope = some p.1

theorem stInv_init (a : Arena) : StInv a ⟨[], [], 0⟩ := by
  constructor
  · intro p hp; simp at hp
  · intro n k h; simp [alook] at h
  · simp
  · intro n k h; simp [alook] at h
  · intro n k h; simp [alook] at h
  · intro p hp; simp at hp

/-- Postcondition of a successful `retrieve` on node `nid`. -/
structure RetPost (a : Arena) (nid : Nat) (st : CState) (k : Key)
    (st1 : CState) : Prop where
  ext : StExt st st1
  inv : StInv a st1
  keyLt : k < st1.counter
  coh : EntryCoherent a st1 nid k
  snew : ∀ n, (alook n st1.scope).isSome → (alook n st.scope).isSome ∨ n ≤ nid
  smap : alook nid st1.scope = some k
  reg : RegFrom a nid

/-- Postcondition of a successful `_ltree_to_dask` dispatch on node
`nid`, entered with `nid` not yet memoized (the only way the driver and
`retrieve` ever call it). -/
structure GoPost (a : Arena) (nid : Nat) (st : CState) (k : Key)
    (st1 : CState) : Prop where
  ext : StExt st st1
  inv : StInv a st1
  keyLt : k < st1.counter
  coh : EntryCoherent a st1 nid k
  snew : ∀ n, (alook n st1.scope).isSome → (alook n st.scope).isSome ∨ n ≤ nid
  smap : alook nid st1.scope = none ∨ alook nid st1.scope = some k
  reg : RegFrom a nid

/-- Postcondition of resolving a list of positional arguments. -/
structure ListPost (a : Arena) (cs : List Nat) (st : CState) (ks : List Key)
    (st1 : CState) : Prop where
  ext : StExt st st1
  inv : StInv a st1
  snew : ∀ n, (alook n st1.scope).isSome →
    (alook n st.scope).isSome ∨ ∃ c ∈ cs, n ≤ c
  f2 : List.Forall₂ (fun c kc => alook c st1.scope = some kc) cs ks
  reg : ∀ c ∈ cs, RegFrom a c

/-- Postcondition of resolving the keyword arguments. -/
structure KwPost (a : Arena) (kws : List (String × Nat)) (st : CState)
    (qs : List (String × Key)) (st1 : CState) : Prop where
  ext : StExt st st1
  inv : StInv a st1
  snew : ∀ n, (alook n st1.scope).isSome →
    (alook n st.scope).isSome ∨ ∃ p ∈ kws, n ≤ p.2
  f2 : List.Forall₂ (fun p q => p.1 = q.1 ∧ alook p.2 st1.scope = some q.2)
    kws qs
  reg : ∀ p ∈ kws, RegFrom a p.2

theorem regFrom_step {a : Arena} {nid : Nat} {hd : NodeData}
    (hget : a.get nid = some hd) (hrat : registeredAt a nid = true)
    (hch : ∀ c ∈ childIds hd, RegFrom a c) : RegFrom a nid := by
  intro m hm
  cases hm with
  | refl => exact hrat
  | step _ c _ hd2 hget2 hc hrm =>
    rw [hget] at hget2
    injection hget2 with h2
    subst h2
    exact hch c hc m hrm

/-- Unfolding of the dispatch function at positive fuel. -/
theorem rec_succ_eq (a : Arena) (g : Nat → Key) (fuel nid : Nat) (st : CState) :
    ltree_to_dask_rec a g (fuel + 1) nid st =
      match a.get nid with
      | none => .error (.unsupportedNodeKind nid)
      | some (.Other _) => .error (.unsupportedNodeKind nid)
      | some (.Normal v) =>
        match alook nid st.scope with
        | some k => .ok (k, st)
        | none =>
          .ok (g st.counter,
            ⟨st.dask ++ [(g st.counter, .Literal v)], st.scope, st.counter + 1⟩)
      | some (.Call f args kwargs) =>
        match retrieve a g fuel f ⟨st.dask, st.scope, st.counter + 1⟩ with
        | .error e => .error e
        | .ok (kf, st2) =>
          match mapRetrieve (retrieve a g fuel) args st2 with
          | .error e => .error e
          | .ok (kas, st3) =>
            match mapRetrieveKw (retrieve a g fuel) kwargs st3 with
            | .error e => .error e
            | .ok (kkws, st4) =>
              .ok (g st.counter,
                ⟨st4.dask ++ [(g st.counter, .Apply kf kas kkws)],
                 (nid, g st.counter) :: st4.scope, st4.counter⟩) := rfl

/-- The inductive hypothesis shape for the main invariant proof. -/
def GoHyp (a : Arena) (fuel : Nat) : Prop :=
  ∀ nid st k st1, ltree_to_dask_rec a genId fuel nid st = .ok (k, st1) →
    StInv a st → alook nid st.scope = none → GoPost a nid st k st1

theorem ret_of_go {a : Arena} {fuel : Nat} (hgo : GoHyp a fuel) :
    ∀ nid st k st1, retrieve a genId fuel nid st = .ok (k, st1) →
      StInv a st → RetPost a nid st k st1 := by
  intro nid st k st1 hrun hinv
  unfold retrieve retrieveWith at hrun
  cases hsc : alook nid st.scope with
  | some k0 =>
    rw [hsc] at hrun
    dsimp only at hrun
    simp only [Except.ok.injEq, Prod.mk.injEq] at hrun
    obtain ⟨hk, hst⟩ := hrun
    subst hk
    subst hst
    exact ⟨StExt.refl st, hinv, hinv.scopeLt nid k0 hsc,
      hinv.coherent nid k0 hsc, fun n h => Or.inl h, hsc,
      hinv.regscope nid k0 hsc⟩
  | none =>
    rw [hsc] at hrun
    dsimp only at hrun
    cases hrec : ltree_to_dask_rec a genId fuel nid st with
    | error e =>
      rw [hrec] at hrun
      exact Except.noConfusion hrun
    | ok p =>
      obtain ⟨k0, s1⟩ := p
      rw [hrec] at hrun
      dsimp only at hrun
      simp only [Except.ok.injEq, Prod.mk.injEq] at hrun
      obtain ⟨hk, hst⟩ := hrun
      subst hk
      subst hst
      have hpost := hgo nid st k0 s1 hrec hinv hsc
      have hstab : ∀ n k2, alook n s1.scope = some k2 →
          alook n ((nid, k0) :: s1.scope : Scope) = some k2 := by
        intro n k2 h
        by_cases hn : n = nid
        · subst hn
          rcases hpost.smap with hno | hso
          · rw [hno] at h
            exact Option.noConfusion h
          · rw [hso] at h
            injection h with h
            simp [alook, h]
        · simp only [alook, if_neg hn]
          exact h
      have hext2 : StExt s1 ⟨s1.dask, (nid, k0) :: s1.scope, s1.counter⟩ :=
        ⟨⟨[], by simp, by simp⟩, Nat.le_refl _, hstab⟩
      have hsm2 : SMono s1 ⟨s1.dask, (nid, k0) :: s1.scope, s1.counter⟩ :=
        hext2.smono
      refine ⟨hpost.ext.extTrans hext2, ?_, hpost.keyLt, hpost.coh.mono hsm2,
        ?_, by simp [alook], hpost.reg⟩
      · constructor
        · exact hpost.inv.daskLt
        · intro n k2 h
          by_cases hn : n = nid
          · subst hn
            simp only [alook, if_pos rfl] at h
            injection h with h
            rw [← h]
            exact hpost.keyLt
          · simp only [alook, if_neg hn] at h
            exact hpost.inv.scopeLt n k2 h
        · exact hpost.inv.keysNodup
        · intro n k2 h
          by_cases hn : n = nid
          · subst hn
            simp only [alook, if_pos rfl] at h
            injection h with h
            rw [← h]
            exact hpost.coh.mono hsm2
          · simp only [alook, if_neg hn] at h
            exact (hpost.inv.coherent n k2 h).mono hsm2
        · intro n k2 h
          by_cases hn : n = nid
          · subst hn
            exact hpost.reg
          · simp only [alook, if_neg hn] at h
            exact hpost.inv.regscope n k2 h
        · intro p hp
          rcases hpost.inv.cover p hp with h | ⟨n, hn⟩
          · exact Or.inl h
          · exact Or.inr ⟨n, hstab n p.1 hn⟩
      · intro n h
        by_cases hn : n = nid
        · exact Or.inr (hn ▸ Nat.le_refl nid)
        · simp only [alook, if_neg hn] at h
          exact hpost.snew n h

theorem mapRetrieve_post {a : Arena}
    {retr : Nat → CState → Except CompErr (Key × CState)}
    (hretr : ∀ c s k s1, retr c s = .ok (k, s1) → StInv a s →
      RetPost a c s k s1) :
    ∀ cs s ks s1, mapRetrieve retr cs s = .ok (ks, s1) → StInv a s →
      ListPost a cs s ks s1 := by
  intro cs
  induction cs with
  | nil =>
    intro s ks s1 hrun hinv
    simp only [mapRetrieve, Except.ok.injEq, Prod.mk.injEq] at hrun
    obtain ⟨hk, hst⟩ := hrun
    subst hk
    subst hst
    exact ⟨StExt.refl s, hinv, fun n h => Or.inl h, List.Forall₂.nil,
      fun c hc => absurd hc (List.not_mem_nil c)⟩
  | cons c cs ih =>
    intro s ks s1 hrun hinv
    simp only [mapRetrieve] at hrun
    cases h1 : retr c s with
    | error e =>
      rw [h1] at hrun
      exact Except.noConfusion hrun
    | ok p =>
      obtain ⟨k, s2⟩ := p
      rw [h1] at hrun
      dsimp only at hrun
      cases h2 : mapRetrieve retr cs s2 with
      | error e =>
        rw [h2] at hrun
        exact Except.noConfusion hrun
      | ok q =>
        obtain ⟨ks2, s3⟩ := q
        rw [h2] at hrun
        dsimp only at hrun
        simp only [Except.ok.injEq, Prod.mk.injEq] at hrun
        obtain ⟨hk, hst⟩ := hrun
        subst hk
        subst hst
        have hp1 := hretr c s k s2 h1 hinv
        have hp2 := ih s2 ks2 s3 h2 hp1.inv
        refine ⟨hp1.ext.extTrans hp2.ext, hp2.inv, ?_, ?_, ?_⟩
        · intro n h
          rcases hp2.snew n h with h | ⟨c2, hc2, hle⟩
          · rcases hp1.snew n h with h | hle
            · exact Or.inl h
            · exact Or.inr ⟨c, List.mem_cons_self c cs, hle⟩
          · exact Or.inr ⟨c2, List.mem_cons_of_mem c hc2, hle⟩
        · exact List.Forall₂.cons (hp2.ext.2.2 c k hp1.smap) hp2.f2
        · intro c2 hc2
          rcases List.mem_cons.mp hc2 with h | h
          · exact h ▸ hp1.reg
          · exact hp2.reg c2 h

theorem mapRetrieveKw_post {a : Arena}
    {retr : Nat → CState → Except CompErr (Key × CState)}
    (hretr : ∀ c s k s1, retr c s = .ok (k, s1) → StInv a s →
      RetPost a c s k s1) :
    ∀ kws s qs s1, mapRetrieveKw retr kws s = .ok (qs, s1) → StInv a s →
      KwPost a kws s qs s1 := by
  intro kws
  induction kws with
  | nil =>
    intro s qs s1 hrun hinv
    simp only [mapRetrieveKw, Except.ok.injEq, Prod.mk.injEq] at hrun
    obtain ⟨hk, hst⟩ := hrun
    subst hk
    subst hst
    exact ⟨StExt.refl s, hinv, fun n h => Or.inl h, List.Forall₂.nil,
      fun p hp => absurd hp (List.not_mem_nil p)⟩
  | cons p kws ih =>
    intro s qs s1 hrun hinv
    simp only [mapRetrieveKw] at hrun
    cases h1 : retr p.2 s with
    | error e =>
      rw [h1] at hrun
      exact Except.noConfusion hrun
    | ok pr =>
      obtain ⟨k, s2⟩ := pr
      rw [h1] at hrun
      dsimp only at hrun
      cases h2 : mapRetrieveKw retr kws s2 with
      | error e =>
        rw [h2] at hrun
        exact Except.noConfusion hrun
      | ok q =>
        obtain ⟨qs2, s3⟩ := q
        rw [h2] at hrun
        dsimp only at hrun
        simp only [Except.ok.injEq, Prod.mk.injEq] at hrun
        obtain ⟨hk, hst⟩ := hrun
        subst hk
        subst hst
        have hp1 := hretr p.2 s k s2 h1 hinv
        have hp2 := ih s2 qs2 s3 h2 hp1.inv
        refine ⟨hp1.ext.extTrans hp2.ext, hp2.inv, ?_, ?_, ?_⟩
        · intro n h
          rcases hp2.snew n h with h | ⟨p2, hp2m, hle⟩
          · rcases hp1.snew n h with h | hle
            · exact Or.inl h
            · exact Or.inr ⟨p, List.mem_cons_self p kws, hle⟩
          · exact Or.inr ⟨p2, List.mem_cons_of_mem p hp2m, hle⟩
        · exact List.Forall₂.cons ⟨rfl, hp2.ext.2.2 p.2 k hp1.smap⟩ hp2.f2
        · intro p2 hp2m
          rcases List.mem_cons.mp hp2m with h | h
          · exact h ▸ hp1.reg
          · exact hp2.reg p2 h

/-- The main invariant theorem: on a well-formed arena, every
successful dispatch of `_ltree_to_dask` on a not-yet-memoized node
establishes `GoPost`. -/
theorem go_post {a : Arena} (hw : a.Wf) : ∀ fuel, GoHyp a fuel := by
  intro fuel
  induction fuel with
  | zero =>
    intro nid st k st1 hrun _ _
    exact Except.noConfusion hrun
  | succ fuel ih =>
    have hret := ret_of_go ih
    intro nid st k st1 hrun hinv hscope
    rw [rec_succ_eq] at hrun
    cases hget : a.get nid with
    | none =>
      rw [hget] at hrun
      simp at hrun
    | some nd =>
      rw [hget] at hrun
      cases nd with
      | Other t => simp at hrun
      | Normal v =>
        dsimp only at hrun
        rw [hscope] at hrun
        dsimp only at hrun
        simp only [genId, Except.ok.injEq, Prod.mk.injEq] at hrun
        obtain ⟨hk, hst⟩ := hrun
        subst hk
        subst hst
        have hfresh : ∀ p ∈ st.dask, p.1 ≠ st.counter :=
          fun p hp => Nat.ne_of_lt (hinv.daskLt p hp)
        have hsm : SMono st
            ⟨st.dask ++ [(st.counter, .Literal v)], st.scope, st.counter + 1⟩ :=
          ⟨⟨[(st.counter, .Literal v)], rfl⟩, fun n k2 h => h⟩
        have hcoh : EntryCoherent a
            ⟨st.dask ++ [(st.counter, .Literal v)], st.scope, st.counter + 1⟩
            nid st.counter := by
          unfold EntryCoherent
          rw [hget]
          dsimp only
          rw [alook_append_fresh hfresh]
          simp [alook]
        refine ⟨⟨⟨[(st.counter, .Literal v)], rfl, ?_⟩, Nat.le_succ _,
          fun n k2 h => h⟩, ?_, Nat.lt_succ_self _, hcoh,
          fun n h => Or.inl h, Or.inl hscope, ?_⟩
        · intro p hp
          simp only [List.mem_singleton] at hp
          subst hp
          exact Nat.le_refl _
        · constructor
          · intro p hp
            rcases List.mem_append.mp hp with h | h
            · exact Nat.lt_succ_of_lt (hinv.daskLt p h)
            · simp only [List.mem_singleton] at h
              subst h
              exact Nat.lt_succ_self _
          · intro n k2 h
            exact Nat.lt_succ_of_lt (hinv.scopeLt n k2 h)
          · simp only [List.map_append, List.map_cons, List.map_nil]
            refine nodup_snoc hinv.keysNodup ?_
            intro hmem
            obtain ⟨p, hp, hp1⟩ := List.mem_map.mp hmem
            exact hfresh p hp hp1
          · intro n k2 h
            exact (hinv.coherent n k2 h).mono hsm
          · exact hinv.regscope
          · intro p hp
            rcases List.mem_append.mp hp with h | h
            · rcases hinv.cover p h with h2 | ⟨n, hn⟩
              · exact Or.inl h2
              · exact Or.inr ⟨n, hn⟩
            · simp only [List.mem_singleton] at h
              subst h
              exact Or.inl ⟨v, rfl⟩
        · refine regFrom_step hget (by simp [registeredAt, hget]) ?_
          intro c hc
          simp [childIds] at hc
      | Call f args kwargs =>
        dsimp only at hrun
        have hchild := hw nid _ hget
        have hf : f < nid := hchild f (List.mem_cons_self _ _)
        have hargsLt : ∀ c ∈ args, c < nid := fun c hc =>
          hchild c (List.mem_cons_of_mem f (List.mem_append_left _ hc))
        have hkwLt : ∀ p ∈ kwargs, p.2 < nid := fun p hp =>
          hchild p.2 (List.mem_cons_of_mem f
            (List.mem_append_right _ (List.mem_map_of_mem Prod.snd hp)))
        have hinv1 : StInv a ⟨st.dask, st.scope, st.counter + 1⟩ := by
          constructor
          · intro p hp
            exact Nat.lt_succ_of_lt (hinv.daskLt p hp)
          · intro n k2 h
            exact Nat.lt_succ_of_lt (hinv.scopeLt n k2 h)
          · exact hinv.keysNodup
          · exact hinv.coherent
          · exact hinv.regscope
          · exact hinv.cover
        cases h1 : retrieve a genId fuel f ⟨st.dask, st.scope, st.counter + 1⟩ with
        | error e =>
          rw [h1] at hrun
          exact Except.noConfusion hrun
        | ok pr =>
          obtain ⟨kf, st2⟩ := pr
          rw [h1] at hrun
          dsimp only at hrun
          cases h2 : mapRetrieve (retrieve a genId fuel) args st2 with
          | error e =>
            rw [h2] at hrun
            exact Except.noConfusion hrun
          | ok q =>
            obtain ⟨kas, st3⟩ := q
            rw [h2] at hrun
            dsimp only at hrun
            cases h3 : mapRetrieveKw (retrieve a genId fuel) kwargs st3 with
            | error e =>
              rw [h3] at hrun
              exact Except.noConfusion hrun
            | ok r =>
              obtain ⟨kkws, st4⟩ := r
              rw [h3] at hrun
              dsimp only at hrun
              simp only [genId, Except.ok.injEq, Prod.mk.injEq] at hrun
              obtain ⟨hk, hst⟩ := hrun
              subst hk
              subst hst
              have hp1 := hret f ⟨st.dask, st.scope, st.counter + 1⟩ kf st2 h1 hinv1
              have hp2 := mapRetrieve_post hret args st2 kas st3 h2 hp1.inv
              have hp3 := mapRetrieveKw_post hret kwargs st3 kkws st4 h3 hp2.inv
              have e24 : StExt ⟨st.dask, st.scope, st.counter + 1⟩ st4 :=
                hp1.ext.extTrans (hp2.ext.extTrans hp3.ext)
              have e01 : StExt st ⟨st.dask, st.scope, st.counter + 1⟩ :=
                ⟨⟨[], by simp, by simp⟩, Nat.le_succ _, fun n k2 h => h⟩
              have e14 : StExt st st4 := e01.extTrans e24
              have hc4 : st.counter + 1 ≤ st4.counter := e24.2.1
              have hfresh : ∀ p ∈ st4.dask, p.1 ≠ st.counter := by
                intro p hp
                obtain ⟨l, hdl, hkl⟩ := e24.1
                rw [hdl] at hp
                rcases List.mem_append.mp hp with h | h
                · exact Nat.ne_of_lt (hinv.daskLt p h)
                · exact Nat.ne_of_gt
                    (Nat.lt_of_lt_of_le (Nat.lt_succ_self _) (hkl p h))
              have hnid4 : alook nid st4.scope = none := by
                cases hx : alook nid st4.scope with
                | none => rfl
                | some k2 =>
                  have hs : (alook nid st4.scope).isSome := by rw [hx]; rfl
                  rcases hp3.snew nid hs with hs3 | ⟨p, hp, hle⟩
                  · rcases hp2.snew nid hs3 with hs2 | ⟨c, hc, hle⟩
                    · rcases hp1.snew nid hs2 with hs1 | hle
                      · dsimp only at hs1
                        rw [hscope] at hs1
                        simp at hs1
                      · exact absurd hle (Nat.not_le.mpr hf)
                    · exact absurd hle (Nat.not_le.mpr (hargsLt c hc))
                  · exact absurd hle (Nat.not_le.mpr (hkwLt p hp))
              have hstab45 : ∀ n k2, alook n st4.scope = some k2 →
                  alook n ((nid, st.counter) :: st4.scope : Scope) = some k2 := by
                intro n k2 h
                by_cases hn : n = nid
                · subst hn
                  rw [hnid4] at h
                  exact Option.noConfusion h
                · simp only [alook, if_neg hn]
                  exact h
              have sm45 : SMono st4
                  ⟨st4.dask ++ [(st.counter, .Apply kf kas kkws)],
                   (nid, st.counter) :: st4.scope, st4.counter⟩ :=
                ⟨⟨[(st.counter, .Apply kf kas kkws)], rfl⟩, hstab45⟩
              have hkf4 : alook f st4.scope = some kf :=
                hp3.ext.2.2 f kf (hp2.ext.2.2 f kf hp1.smap)
              have hcoh5 : EntryCoherent a
                  ⟨st4.dask ++ [(st.counter, .Apply kf kas kkws)],
                   (nid, st.counter) :: st4.scope, st4.counter⟩
                  nid st.counter := by
                unfold EntryCoherent
                rw [hget]
                dsimp only
                refine ⟨kf, kas, kkws, ?_, hstab45 f kf hkf4,
                  (hp2.f2.imp fun c kc hc =>
                    hstab45 c kc (hp3.ext.2.2 c kc hc)),
                  (hp3.f2.imp fun p q hpq =>
                    ⟨hpq.1, hstab45 p.2 q.2 hpq.2⟩)⟩
                rw [alook_append_fresh hfresh]
                simp [alook]
              have hreg5 : RegFrom a nid := by
                refine regFrom_step hget (by simp [registeredAt, hget]) ?_
                intro c hc
                rcases List.mem_cons.mp hc with h | h
                · rw [h]
                  exact hp1.reg
                · rcases List.mem_append.mp h with h | h
                  · exact hp2.reg c h
                  · obtain ⟨p, hp, hpc⟩ := List.mem_map.mp h
                    rw [← hpc]
                    exact hp3.reg p hp
              have inv5 : StInv a
                  ⟨st4.dask ++ [(st.counter, .Apply kf kas kkws)],
                   (nid, st.counter) :: st4.scope, st4.counter⟩ := by
                constructor
                · intro p hp
                  rcases List.mem_append.mp hp with h | h
                  · exact hp3.inv.daskLt p h
                  · simp only [List.mem_singleton] at h
                    subst h
                    exact Nat.lt_of_lt_of_le (Nat.lt_succ_self _) hc4
                · intro n k2 h
                  by_cases hn : n = nid
                  · subst hn
                    simp only [alook, if_pos rfl] at h
                    injection h with h
                    rw [← h]
                    exact Nat.lt_of_lt_of_le (Nat.lt_succ_self _) hc4
                  · simp only [alook, if_neg hn] at h
                    exact hp3.inv.scopeLt n k2 h
                · simp only [List.map_append, List.map_cons, List.map_nil]
                  refine nodup_snoc hp3.inv.keysNodup ?_
                  intro hmem
                  obtain ⟨p, hp, hp1m⟩ := List.mem_map.mp hmem
                  exact hfresh p hp hp1m
                · intro n k2 h
                  by_cases hn : n = nid
                  · subst hn
                    simp only [alook, if_pos rfl] at h
                    injection h with h
                    rw [← h]
                    exact hcoh5
                  · simp only [alook, if_neg hn] at h
                    exact (hp3.inv.coherent n k2 h).mono sm45
                · intro n k2 h
                  by_cases hn : n = nid
                  · subst hn
                    exact hreg5
                  · simp only [alook, if_neg hn] at h
                    exact hp3.inv.regscope n k2 h
                · intro p hp
                  rcases List.mem_append.mp hp with h | h
                  · rcases hp3.inv.cover p h with h2 | ⟨n, hn⟩
                    · exact Or.inl h2
                    · exact Or.inr ⟨n, hstab45 n p.1 hn⟩
                  · simp only [List.mem_singleton] at h
                    subst h
                    exact Or.inr ⟨nid, by simp [alook]⟩
              obtain ⟨l14, hd14, hk14⟩ := e14.1
              refine ⟨⟨⟨l14 ++ [(st.counter, .Apply kf kas kkws)], ?_, ?_⟩,
                Nat.le_trans (Nat.le_succ _) hc4, ?_⟩, inv5,
                Nat.lt_of_lt_of_le (Nat.lt_succ_self _) hc4, hcoh5, ?_,
                Or.inr (by simp [alook]), hreg5⟩
              · show st4.dask ++ _ = _
                rw [hd14, List.append_assoc]
              · intro p hp
                rcases List.mem_append.mp hp with h | h
                · exact hk14 p h
                · simp only [List.mem_singleton] at h
                  subst h
                  exact Nat.le_refl _
              · intro n k2 h
                exact hstab45 n k2 (e14.2.2 n k2 h)
              · intro n h
                by_cases hn : n = nid
                · exact Or.inr (Nat.le_of_eq hn)
                · dsimp only at h
                  simp only [alook, if_neg hn] at h
                  rcases hp3.snew n h with h3 | ⟨p, hp, hle⟩
                  · rcases hp2.snew n h3 with h2 | ⟨c, hc, hle⟩
                    · rcases hp1.snew n h2 with h1 | hle
                      · exact Or.inl h1
                      · exact Or.inr (Nat.le_of_lt (Nat.lt_of_le_of_lt hle hf))
                    · exact Or.inr
                        (Nat.le_of_lt (Nat.lt_of_le_of_lt hle (hargsLt c hc)))
                  · exact Or.inr
                      (Nat.le_of_lt (Nat.lt_of_le_of_lt hle (hkwLt p hp)))

/-- Classification of a dispatch result: success, or an
`unsupportedNodeKind` error blamed on a reachable node with no
registered rule. -/
def RecClass (a : Arena) (n : Nat) (r : Except CompErr (Key × CState)) : Prop :=
  (∃ k st1, r = .ok (k, st1)) ∨
  (∃ m, r = .error (.unsupportedNodeKind m) ∧ Reachable a n m ∧
    registeredAt a m = false)

theorem retClass_of_recClass {a : Arena} {fuel nid : Nat}
    (h : ∀ st, RecClass a nid (ltree_to_dask_rec a genId fuel nid st)) :
    ∀ st, RecClass a nid (retrieve a genId fuel nid st) := by
  intro st
  unfold retrieve retrieveWith
  cases hsc : alook nid st.scope with
  | some k => exact Or.inl ⟨k, st, rfl⟩
  | none =>
    dsimp only
    rcases h st with ⟨k, st1, hok⟩ | ⟨m, herr, hreach, hreg⟩
    · rw [hok]
      exact Or.inl ⟨k, _, rfl⟩
    · rw [herr]
      exact Or.inr ⟨m, rfl, hreach, hreg⟩

theorem mapRetrieve_class {a : Arena}
    {retr : Nat → CState → Except CompErr (Key × CState)} {cs : List Nat}
    (h : ∀ c ∈ cs, ∀ s, RecClass a c (retr c s)) :
    ∀ s, (∃ ks s1, mapRetrieve retr cs s = .ok (ks, s1)) ∨
      (∃ m c, c ∈ cs ∧
        mapRetrieve retr cs s = .error (.unsupportedNodeKind m) ∧
        Reachable a c m ∧ registeredAt a m = false) := by
  induction cs with
  | nil =>
    intro s
    exact Or.inl ⟨[], s, rfl⟩
  | cons c cs ih =>
    intro s
    rcases h c (List.mem_cons_self c cs) s with ⟨k, s1, hok⟩ |
      ⟨m, herr, hreach, hreg⟩
    · rcases ih (fun c2 hc2 s2 => h c2 (List.mem_cons_of_mem c hc2) s2) s1 with
        ⟨ks, s2, hok2⟩ | ⟨m, c2, hc2, herr2, hreach2, hreg2⟩
      · refine Or.inl ⟨k :: ks, s2, ?_⟩
        simp only [mapRetrieve, hok, hok2]
      · refine Or.inr ⟨m, c2, List.mem_cons_of_mem c hc2, ?_, hreach2, hreg2⟩
        simp only [mapRetrieve, hok, herr2]
    · refine Or.inr ⟨m, c, List.mem_cons_self c cs, ?_, hreach, hreg⟩
      simp only [mapRetrieve, herr]

theorem mapRetrieveKw_class {a : Arena}
    {retr : Nat → CState → Except CompErr (Key × CState)}
    {kws : List (String × Nat)}
    (h : ∀ p ∈ kws, ∀ s, RecClass a p.2 (retr p.2 s)) :
    ∀ s, (∃ qs s1, mapRetrieveKw retr kws s = .ok (qs, s1)) ∨
      (∃ m p, p ∈ kws ∧
        mapRetrieveKw retr kws s = .error (.unsupportedNodeKind m) ∧
        Reachable a p.2 m ∧ registeredAt a m = false) := by
  induction kws with
  | nil =>
    intro s
    exact Or.inl ⟨[], s, rfl⟩
  | cons p kws ih =>
    intro s
    rcases h p (List.mem_cons_self p kws) s with ⟨k, s1, hok⟩ |
      ⟨m, herr, hreach, hreg⟩
    · rcases ih (fun p2 hp2 s2 => h p2 (List.mem_cons_of_mem p hp2) s2) s1 with
        ⟨qs, s2, hok2⟩ | ⟨m, p2, hp2, herr2, hreach2, hreg2⟩
      · refine Or.inl ⟨(p.1, k) :: qs, s2, ?_⟩
        simp only [mapRetrieveKw, hok, hok2]
      · refine Or.inr ⟨m, p2, List.mem_cons_of_mem p hp2, ?_, hreach2, hreg2⟩
        simp only [mapRetrieveKw, hok, herr2]
    · refine Or.inr ⟨m, p, List.mem_cons_self p kws, ?_, hreach, hreg⟩
      simp only [mapRetrieveKw, herr]

/-- With fuel at least `nid + 1`, a dispatch on a well-formed arena
either succeeds or fails with `unsupportedNodeKind` on a reachable
unregistered node; it never runs out of fuel. -/
theorem rec_class {a : Arena} (hw : a.Wf) :
    ∀ nid fuel st, nid + 1 ≤ fuel →
      RecClass a nid (ltree_to_dask_rec a genId fuel nid st) := by
  intro nid
  induction nid using Nat.strong_induction_on with
  | _ nid ih =>
    intro fuel st hfuel
    obtain ⟨fuel, rfl⟩ : ∃ f, fuel = f + 1 := ⟨fuel - 1, by omega⟩
    rw [rec_succ_eq]
    cases hget : a.get nid with
    | none =>
      exact Or.inr ⟨nid, rfl, Reachable.refl nid, by simp [registeredAt, hget]⟩
    | some nd =>
      cases nd with
      | Other t =>
        exact Or.inr ⟨nid, rfl, Reachable.refl nid,
          by simp [registeredAt, hget]⟩
      | Normal v =>
        cases hsc : alook nid st.scope with
        | some k => exact Or.inl ⟨k, st, rfl⟩
        | none => exact Or.inl ⟨_, _, rfl⟩
      | Call f args kwargs =>
        dsimp only
        have hchild := hw nid _ hget
        have hf : f < nid := hchild f (List.mem_cons_self _ _)
        have hargsLt : ∀ c ∈ args, c < nid := fun c hc =>
          hchild c (List.mem_cons_of_mem f (List.mem_append_left _ hc))
        have hkwLt : ∀ p ∈ kwargs, p.2 < nid := fun p hp =>
          hchild p.2 (List.mem_cons_of_mem f
            (List.mem_append_right _ (List.mem_map_of_mem Prod.snd hp)))
        have hcls : ∀ c, c < nid → ∀ s,
            RecClass a c (retrieve a genId fuel c s) := by
          intro c hc
          refine retClass_of_recClass ?_
          intro s
          exact ih c hc fuel s (by omega)
        rcases hcls f hf ⟨st.dask, st.scope, st.counter + 1⟩ with
          ⟨kf, st2, hok1⟩ | ⟨m, herr, hreach, hregm⟩
        · rw [hok1]
          dsimp only
          rcases mapRetrieve_class
              (fun c hc s => hcls c (hargsLt c hc) s) st2 with
            ⟨kas, st3, hok2⟩ | ⟨m, c, hc, herr2, hreach2, hregm2⟩
          · rw [hok2]
            dsimp only
            rcases mapRetrieveKw_class
                (fun p hp s => hcls p.2 (hkwLt p hp) s) st3 with
              ⟨kkws, st4, hok3⟩ | ⟨m, p, hp, herr3, hreach3, hregm3⟩
            · rw [hok3]
              exact Or.inl ⟨_, _, rfl⟩
            · rw [herr3]
              exact Or.inr ⟨m, rfl,
                Reachable.step nid p.2 m _ hget
                  (List.mem_cons_of_mem f (List.mem_append_right _
                    (List.mem_map_of_mem Prod.snd hp))) hreach3, hregm3⟩
          · rw [herr2]
            exact Or.inr ⟨m, rfl,
              Reachable.step nid c m _ hget
                (List.mem_cons_of_mem f (List.mem_append_left _ hc)) hreach2,
              hregm2⟩
        · rw [herr]
          exact Or.inr ⟨m, rfl,
            Reachable.step nid f m _ hget (List.mem_cons_self _ _) hreach,
            hregm⟩

/-- Packaging: on valid input the compilation succeeds and the final
state satisfies the full invariant. -/
theorem compile_ok {a : Arena} {root : Nat} (hw : a.Wf) (hreg : RegFrom a root)
    (hroot : root < a.size) :
    ∃ k st1,
      ltree_to_dask_rec a genId a.size root ⟨[], [], 0⟩ = .ok (k, st1) ∧
      GoPost a root ⟨[], [], 0⟩ k st1 := by
  have hcl := rec_class hw root a.size ⟨[], [], 0⟩ (by omega)
  rcases hcl with ⟨k, st1, hok⟩ | ⟨m, herr, hreach, hm⟩
  · exact ⟨k, st1, hok,
      go_post hw a.size root ⟨[], [], 0⟩ k st1 hok (stInv_init a) rfl⟩
  · rw [hreg m hreach] at hm
    exact Bool.noConfusion hm

/-- Every key a Descriptor references (the callee key, each positional
argument key, each keyword argument key). -/
def descrKeys : Descr → List Key
  | .Literal _ => []
  | .Apply c ks kws => c :: (ks ++ kws.map Prod.snd)

/-- Every key referenced inside any Descriptor of the graph is present
as a top-level entry of the same graph. -/
def GraphClosed (gr : Graph) : Prop :=
  ∀ p ∈ gr, ∀ k2 ∈ descrKeys p.2, ∃ d, alook k2 gr = some d

theorem entryCoherent_dask {a : Arena} {st : CState} {n : Nat} {k : Key}
    (h : EntryCoherent a st n k) : ∃ d, alook k st.dask = some d := by
  unfold EntryCoherent at h
  cases hget : a.get n with
  | none =>
    rw [hget] at h
    exact h.elim
  | some nd =>
    rw [hget] at h
    cases nd with
    | Normal v => exact ⟨_, h⟩
    | Call f args kwargs =>
      obtain ⟨kf, kas, kkws, h1, _⟩ := h
      exact ⟨_, h1⟩
    | Other t => exact h.elim

theorem closed_of_inv {a : Arena} {st : CState} (hinv : StInv a st) :
    GraphClosed st.dask := by
  intro p hp k2 hk2
  cases hd : p.2 with
  | Literal v =>
    rw [hd] at hk2
    simp [descrKeys] at hk2
  | Apply cf ks kws =>
    rw [hd] at hk2
    rcases hinv.cover p hp with ⟨v, hv⟩ | ⟨n, hn⟩
    · rw [hd] at hv
      exact Descr.noConfusion hv
    · have hcoh := hinv.coherent n p.1 hn
      have halk : alook p.1 st.dask = some p.2 :=
        alook_of_mem_nodup hinv.keysNodup hp
      unfold EntryCoherent at hcoh
      cases hget : a.get n with
      | none =>
        rw [hget] at hcoh
        exact hcoh.elim
      | some nd =>
        rw [hget] at hcoh
        cases nd with
        | Other t => exact hcoh.elim
        | Normal v =>
          rw [halk] at hcoh
          injection hcoh with hcoh
          rw [hd] at hcoh
          exact Descr.noConfusion hcoh
        | Call f args kwargs =>
          obtain ⟨kf, kas, kkws, h1, h2, h3, h4⟩ := hcoh
          rw [halk] at h1
          injection h1 with h1
          rw [hd] at h1
          injection h1 with e1 e2 e3
          subst e1
          subst e2
          subst e3
          rcases List.mem_cons.mp hk2 with h | h
          · subst h
            exact entryCoherent_dask (hinv.coherent f k2 h2)
          · rcases List.mem_append.mp h with h | h
            · obtain ⟨c, hc, hck⟩ := forall2_mem_right h3 h
              exact entryCoherent_dask (hinv.coherent c k2 hck)
            · obtain ⟨q, hq, hq2⟩ := List.mem_map.mp h
              obtain ⟨pp, hpp, hppr⟩ := forall2_mem_right h4 hq
              rw [← hq2]
              exact entryCoherent_dask (hinv.coherent pp.2 q.2 hppr.2)

theorem forall2_kw_fst {st : CState} {kws : List (String × Nat)}
    {qs : List (String × Key)}
    (h : List.Forall₂ (fun p q => p.1 = q.1 ∧ alook p.2 st.scope = some q.2)
      kws qs) : qs.map Prod.fst = kws.map Prod.fst := by
  induction h with
  | nil => rfl
  | cons hR _ ih =>
    simp only [List.map_cons, ih, hR.1]

/-! ### Key-supply independence (relabeling) -/

def relabelDescr (g : Nat → Nat) : Descr → Descr
  | .Literal v => .Literal v
  | .Apply c ks kws => .Apply (g c) (ks.map g) (kws.map fun p => (p.1, g p.2))

def relabelGraph (g : Nat → Nat) (gr : Graph) : Graph :=
  gr.map fun p => (g p.1, relabelDescr g p.2)

def relabelScope (g : Nat → Nat) (s : Scope) : Scope :=
  s.map fun p => (p.1, g p.2)

def relabelState (g : Nat → Nat) (st : CState) : CState :=
  ⟨relabelGraph g st.dask, relabelScope g st.scope, st.counter⟩

def relabelRes (g : Nat → Nat) :
    Except CompErr (Key × CState) → Except CompErr (Key × CState)
  | .error e => .error e
  | .ok (k, st) => .ok (g k, relabelState g st)

theorem alook_relabelScope (g : Nat → Nat) (s : Scope) (n : Nat) :
    alook n (relabelScope g s) = (alook n s).map g := by
  induction s with
  | nil => rfl
  | cons p rest ih =>
    simp only [relabelScope, List.map_cons, alook] at ih ⊢
    by_cases hn : n = p.1
    · simp [hn]
    · simp only [if_neg hn]
      exact ih

theorem relabelGraph_append (g : Nat → Nat) (l1 l2 : Graph) :
    relabelGraph g (l1 ++ l2) = relabelGraph g l1 ++ relabelGraph g l2 :=
  List.map_append _ l1 l2

theorem mapRetrieve_relabel {g : Nat → Nat}
    {retr1 retr2 : Nat → CState → Except CompErr (Key × CState)}
    (h : ∀ c s, retr2 c (relabelState g s) = relabelRes g (retr1 c s)) :
    ∀ cs s, mapRetrieve retr2 cs (relabelState g s) =
      match mapRetrieve retr1 cs s with
      | .error e => .error e
      | .ok (ks, s1) => .ok (ks.map g, relabelState g s1) := by
  intro cs
  induction cs with
  | nil =>
    intro s
    rfl
  | cons c cs ih =>
    intro s
    simp only [mapRetrieve]
    rw [h c s]
    cases h1 : retr1 c s with
    | error e => rfl
    | ok p =>
      obtain ⟨k, s1⟩ := p
      dsimp only [relabelRes]
      rw [ih s1]
      cases h2 : mapRetrieve retr1 cs s1 with
      | error e => rfl
      | ok q =>
        obtain ⟨ks, s2⟩ := q
        rfl

theorem mapRetrieveKw_relabel {g : Nat → Nat}
    {retr1 retr2 : Nat → CState → Except CompErr (Key × CState)}
    (h : ∀ c s, retr2 c (relabelState g s) = relabelRes g (retr1 c s)) :
    ∀ kws s, mapRetrieveKw retr2 kws (relabelState g s) =
      match mapRetrieveKw retr1 kws s with
      | .error e => .error e
      | .ok (qs, s1) =>
        .ok (qs.map fun q => (q.1, g q.2), relabelState g s1) := by
  intro kws
  induction kws with
  | nil =>
    intro s
    rfl
  | cons p kws ih =>
    intro s
    simp only [mapRetrieveKw]
    rw [h p.2 s]
    cases h1 : retr1 p.2 s with
    | error e => rfl
    | ok pr =>
      obtain ⟨k, s1⟩ := pr
      dsimp only [relabelRes]
      rw [ih s1]
      cases h2 : mapRetrieveKw retr1 kws s1 with
      | error e => rfl
      | ok q =>
        obtain ⟨qs, s2⟩ := q
        rfl

theorem retrieve_relabel_of (a : Arena) (g : Nat → Key) (fuel : Nat)
    (hrec : ∀ nid st,
      ltree_to_dask_rec a g fuel nid (relabelState g st) =
        relabelRes g (ltree_to_dask_rec a genId fuel nid st)) :
    ∀ c s, retrieve a g fuel c (relabelState g s) =
      relabelRes g (retrieve a genId fuel c s) := by
  intro c s
  unfold retrieve retrieveWith
  rw [show (relabelState g s).scope = relabelScope g s.scope from rfl,
    alook_relabelScope]
  cases hsc : alook c s.scope with
  | some k => rfl
  | none =>
    dsimp only
    rw [hrec c s]
    cases hr : ltree_to_dask_rec a genId fuel c s with
    | error e => rfl
    | ok p =>
      obtain ⟨k, s1⟩ := p
      rfl

/-- The key supply only relabels the output: running the compiler with
supply `g` from a relabeled state produces exactly the `genId` run with
every key pushed through `g`.  Control flow, errors and entry order are
identical. -/
theorem rec_relabel (a : Arena) (g : Nat → Key) :
    ∀ fuel nid st,
      ltree_to_dask_rec a g fuel nid (relabelState g st) =
        relabelRes g (ltree_to_dask_rec a genId fuel nid st) := by
  intro fuel
  induction fuel with
  | zero =>
    intro nid st
    rfl
  | succ fuel ih =>
    have hret := retrieve_relabel_of a g fuel ih
    intro nid st
    rw [rec_succ_eq, rec_succ_eq]
    cases hget : a.get nid with
    | none => rfl
    | some nd =>
      cases nd with
      | Other t => rfl
      | Normal v =>
        dsimp only
        rw [show (relabelState g st).scope = relabelScope g st.scope from rfl,
          alook_relabelScope]
        cases hsc : alook nid st.scope with
        | some k => rfl
        | none =>
          dsimp only [relabelRes, relabelState]
          rw [relabelGraph_append]
          rfl
      | Call f args kwargs =>
        dsimp only [relabelState]
        rw [show (⟨relabelGraph g st.dask, relabelScope g st.scope,
            st.counter + 1⟩ : CState) =
          relabelState g ⟨st.dask, st.scope, st.counter + 1⟩ from rfl]
        rw [hret f ⟨st.dask, st.scope, st.counter + 1⟩]
        cases h1 : retrieve a genId fuel f ⟨st.dask, st.scope, st.counter + 1⟩ with
        | error e => rfl
        | ok p =>
          obtain ⟨kf, st2⟩ := p
          dsimp only [relabelRes]
          rw [mapRetrieve_relabel hret args st2]
          cases h2 : mapRetrieve (retrieve a genId fuel) args st2 with
          | error e => rfl
          | ok q =>
            obtain ⟨kas, st3⟩ := q
            dsimp only
            rw [mapRetrieveKw_relabel hret kwargs st3]
            cases h3 : mapRetrieveKw (retrieve a genId fuel) kwargs st3 with
            | error e => rfl
            | ok r =>
              obtain ⟨kkws, st4⟩ := r
              dsimp only [relabelRes, relabelState]
              rw [relabelGraph_append]
              rfl

/-- Relabeling lifted to the driver. -/
theorem driver_relabel (g : Nat → Key) (a : Arena) (root : Nat) :
    ltree_to_daskW g a root =
      match ltree_to_dask a root with
      | .error e => .error e
      | .ok (gr, k) => .ok (relabelGraph g gr, g k) := by
  unfold ltree_to_dask ltree_to_daskW
  have hrel := rec_relabel a g a.size root ⟨[], [], 0⟩
  rw [show relabelState g ⟨[], [], 0⟩ = (⟨[], [], 0⟩ : CState) from rfl] at hrel
  rw [hrel]
  cases hr : ltree_to_dask_rec a genId a.size root ⟨[], [], 0⟩ with
  | error e => rfl
  | ok p =>
    obtain ⟨k, st⟩ := p
    rfl

theorem relabelDescr_comp (f g : Nat → Nat) (d : Descr) :
    relabelDescr f (relabelDescr g d) = relabelDescr (fun x => f (g x)) d := by
  cases d with
  | Literal v => rfl
  | Apply c ks kws =>
    simp [relabelDescr, List.map_map, Function.comp]

theorem relabelGraph_comp (f g : Nat → Nat) (gr : Graph) :
    relabelGraph f (relabelGraph g gr) = relabelGraph (fun x => f (g x)) gr := by
  simp [relabelGraph, List.map_map, Function.comp, relabelDescr_comp]

theorem relabelGraph_congr {f g : Nat → Nat} (h : ∀ x, f x = g x)
    (gr : Graph) : relabelGraph f gr = relabelGraph g gr := by
  have : f = g := funext h
  rw [this]

theorem relabelGraph_keys (g : Nat → Nat) (gr : Graph) :
    (relabelGraph g gr).map Prod.fst = (gr.map Prod.fst).map g := by
  simp [relabelGraph, List.map_map, Function.comp]

/-! ### Concrete scenarios -/

/-! ### Concrete scenarios -/

/-- The C1 scenario: `add` = node 0, `Terminal 1` = node 1,
`Terminal 2` = node 2, `inner = Invocation(add, [1, 2])` = node 3,
`outer = Invocation(add, [inner, inner])` = node 4 (the same `inner`
object in both positional slots). -/
def c1a : Arena :=
  ⟨[.Normal (.pyFun "add"), .Normal (.pyInt 1), .Normal (.pyInt 2),
    .Call 0 [1, 2] [], .Call 0 [3, 3] []]⟩

/-- The graph `ltree_to_dask` produces on the C1 scenario. -/
def c1graph : Graph :=
  [(1, .Literal (.pyFun "add")), (3, .Literal (.pyInt 1)),
   (4, .Literal (.pyInt 2)), (2, .Apply 1 [3, 4] []),
   (0, .Apply 1 [2, 2] [])]

def isLit : Descr → Bool
  | .Literal _ => true
  | _ => false

def isApp : Descr → Bool
  | .Apply _ _ _ => true
  | _ => false

/-- C3 scenario, first insertion order: a `Call` whose keyword dict was
built as `b=Terminal 1, a=Terminal 2`. -/
def c3a : Arena :=
  ⟨[.Normal (.pyFun "f"), .Normal (.pyInt 1), .Normal (.pyInt 2),
    .Call 0 [] [("b", 1), ("a", 2)]]⟩

/-- C3 scenario, second insertion order: the structurally identical
invocation (same name-to-value mapping `a = 2, b = 1`) with the keyword
dict built as `a=Terminal 2, b=Terminal 1`. -/
def c3b : Arena :=
  ⟨[.Normal (.pyFun "f"), .Normal (.pyInt 2), .Normal (.pyInt 1),
    .Call 0 [] [("a", 1), ("b", 2)]]⟩

def c3agraph : Graph :=
  [(1, .Literal (.pyFun "f")), (2, .Literal (.pyInt 1)),
   (3, .Literal (.pyInt 2)), (0, .Apply 1 [] [("b", 2), ("a", 3)])]

def c3bgraph : Graph :=
  [(1, .Literal (.pyFun "f")), (2, .Literal (.pyInt 2)),
   (3, .Literal (.pyInt 1)), (0, .Apply 1 [] [("a", 2), ("b", 3)])]

/-- C5 scenario: two distinct Terminal objects wrapping the equal value
`5` (nodes 1 and 2), both arguments of one invocation. -/
def c5a : Arena :=
  ⟨[.Normal (.pyFun "add"), .Normal (.pyInt 5), .Normal (.pyInt 5),
    .Call 0 [1, 2] []]⟩

/-- C5 scenario: one Terminal object wrapping `5` (node 1) referenced
twice from the same invocation. -/
def c5b : Arena :=
  ⟨[.Normal (.pyFun "add"), .Normal (.pyInt 5), .Call 0 [1, 1] []]⟩

/-! ### The executor surface: `autodaskthunk` and `register_get` -/

/-- A `get` function that can be installed by `register_get`:
the default `dask.get`, or some other callable (modelled by a constant
function, enough to observe which `get` an evaluation used). -/
inductive GetFn where
  | daskGet
  | constGet (v : PyVal)
  deriving DecidableEq

/-- Run a `get` function on `(dask, name)`; `dask.get` is modelled by
the reference executor. -/
def runGet : GetFn → Graph → Key → Option PyVal
  | .daskGet, gr, k => execKey gr (gr.length + 1) k
  | .constGet v, _, _ => some v

/-- The mutable class-level state of `autodaskthunk`: its `_get`
class attribute. -/
structure AutodaskCls where
  getf : GetFn
  deriving DecidableEq

/-- The initial class state: `_get = dask.get`. -/
def autodaskthunkDefault : AutodaskCls := ⟨.daskGet⟩

/-- `register_get(get)`: `autodaskthunk._get = get; return get`.
The first component is the class state after the assignment, the second
is the returned value. -/
def register_get (_cls : AutodaskCls) (g : GetFn) : AutodaskCls × GetFn :=
  (⟨g⟩, g)

/-- `autodaskthunk.__strict__`: `__class__._get(*ltree_to_dask(...))`.
The evaluation reads whatever `_get` currently sits on the class. -/
def thunkStrict (cls : AutodaskCls) (a : Arena) (root : Nat) : Option PyVal :=
  match ltree_to_dask a root with
  | .error _ => none
  | .ok (gr, k) => runGet cls.getf gr k

/-- C9 scenario: a thunk whose tree is the bare `Terminal 42`. -/
def c9a : Arena := ⟨[.Normal (.pyInt 42)]⟩

/-! ### Claims settled by concrete computation -/

/-- Claim C1, counterexample: on the scenario
`outer = Invocation(add, [inner, inner])`,
`inner = Invocation(add, [Terminal 1, Terminal 2])`, the compiled graph
has five entries, not four as claimed: the callee `add` is itself a
Terminal node and `retrieve(node.func)` compiles it into an entry of its
own, alongside the entries for `Terminal 1`, `Terminal 2`, `inner` and
`outer`. -/
theorem claim1_counterexample :
    ltree_to_dask c1a 4 = .ok (c1graph, 0) ∧ c1graph.length ≠ 4 :=
  ⟨rfl, by decide⟩

/-- Claim C1, amended: the graph has exactly five entries — three
`Literal` entries (`add`, `1`, `2`) and two `Apply` entries (`inner` at
key 2, `outer` at key 0).  `outer`'s two positional argument keys are
equal to each other and equal to `inner`'s key (both are 2), and
executing the graph with the minimal reference executor yields 6. -/
theorem claim1_amended :
    ltree_to_dask c1a 4 = .ok (c1graph, 0) ∧
    c1graph.length = 5 ∧
    (c1graph.filter fun p => isLit p.2).length = 3 ∧
    (c1graph.filter fun p => isApp p.2).length = 2 ∧
    alook 2 c1graph = some (.Apply 1 [3, 4] []) ∧
    alook 0 c1graph = some (.Apply 1 [2, 2] []) ∧
    execKey c1graph 10 0 = some (.pyInt 6) :=
  ⟨rfl, by decide, by decide, by decide, by decide, by decide, by decide⟩

/-- Claim C3, counterexample: the keyword-pair sequence inside an
`Apply` descriptor follows the kwargs dict's insertion order, not a
canonical sorted order.  The two structurally identical invocations of
`c3a` (`b=1, a=2`) and `c3b` (`a=2, b=1`) compile to descriptors whose
keyword-key sequences carry the names in the orders `b, a` and `a, b`
respectively — not identical, hence not canonically ordered. -/
theorem claim3_counterexample :
    ltree_to_dask c3a 3 = .ok (c3agraph, 0) ∧
    ltree_to_dask c3b 3 = .ok (c3bgraph, 0) ∧
    alook 0 c3agraph = some (.Apply 1 [] [("b", 2), ("a", 3)]) ∧
    alook 0 c3bgraph = some (.Apply 1 [] [("a", 2), ("b", 3)]) ∧
    ([("b", 2), ("a", 3)] : List (String × Key)).map Prod.fst ≠
      ([("a", 2), ("b", 3)] : List (String × Key)).map Prod.fst :=
  ⟨rfl, rfl, by decide, by decide, by decide⟩

/-- Claim C5: identity-based memoization.  Two distinct Terminal
objects wrapping the equal value `5` compile to two separate `Literal`
entries (graph `c5a`), while two references to the same Terminal object
produce a single `Literal 5` entry whose key appears twice in the
consuming `Apply` (graph `c5b`). -/
theorem claim5_identity_memo :
    ltree_to_dask c5a 3 =
      .ok ([(1, .Literal (.pyFun "add")), (2, .Literal (.pyInt 5)),
            (3, .Literal (.pyInt 5)), (0, .Apply 1 [2, 3] [])], 0) ∧
    ltree_to_dask c5b 2 =
      .ok ([(1, .Literal (.pyFun "add")), (2, .Literal (.pyInt 5)),
            (0, .Apply 1 [2, 2] [])], 0) ∧
    (([(1, .Literal (.pyFun "add")), (2, .Literal (.pyInt 5)),
       (3, .Literal (.pyInt 5)), (0, .Apply 1 [2, 3] [])] : Graph).filter
      fun p => decide (p.2 = .Literal (.pyInt 5))).length = 2 ∧
    (([(1, .Literal (.pyFun "add")), (2, .Literal (.pyInt 5)),
       (0, .Apply 1 [2, 2] [])] : Graph).filter
      fun p => decide (p.2 = .Literal (.pyInt 5))).length = 1 :=
  ⟨rfl, rfl, by decide, by decide⟩

/-- Claim C9, counterexample: `register_get` does mutate process-wide
shared state.  It returns the given `get` unchanged, but it assigns it
to the class attribute `autodaskthunk._get`, and a subsequent
`__strict__` evaluation of an unrelated thunk (`Terminal 42`, never
explicitly supplied the new `get`) changes its result from `42` to the
newly registered `get`'s result. -/
theorem claim9_counterexample :
    (register_get autodaskthunkDefault (.constGet (.pyInt 0))).2 =
      .constGet (.pyInt 0) ∧
    (register_get autodaskthunkDefault (.constGet (.pyInt 0))).1 ≠
      autodaskthunkDefault ∧
    thunkStrict autodaskthunkDefault c9a 0 = some (.pyInt 42) ∧
    thunkStrict (register_get autodaskthunkDefault (.constGet (.pyInt 0))).1
        c9a 0 = some (.pyInt 0) :=
  ⟨rfl, by decide, rfl, rfl⟩

/-- C8 scenario: node 0 is of a type with no registered rule; node 1 is
an invocation whose callee is node 0. -/
def c8a : Arena := ⟨[.Other "object", .Call 0 [] []]⟩

/-- Claim C2: common subexpression elimination.  On valid input the
compilation succeeds, the graph keys are pairwise distinct (so a node's
scope binding designates exactly one graph entry), and every memoized
node's entry is coherent: an `Apply` entry for an invocation node
references exactly the scope binding of its callee and of each
argument, so every Descriptor depending on a shared node uses that
node's single key.  Moreover resolving a node whose identity is already
mapped in scope returns the existing key with the state unchanged (zero
new graph entries) and without invoking the dispatch rule. -/
theorem claim2_cse (a : Arena) (root : Nat) (hw : a.Wf) (hreg : RegFrom a root)
    (hroot : root < a.size) :
    ∃ k st1,
      ltree_to_dask_rec a genId a.size root ⟨[], [], 0⟩ = .ok (k, st1) ∧
      (st1.dask.map Prod.fst).Nodup ∧
      (∀ n kn, alook n st1.scope = some kn → EntryCoherent a st1 n kn) ∧
      (∀ g fuel n s kn, alook n s.scope = some kn →
        retrieve a g fuel n s = .ok (kn, s)) := by
  obtain ⟨k, st1, hok, hpost⟩ := compile_ok hw hreg hroot
  refine ⟨k, st1, hok, hpost.inv.keysNodup, hpost.inv.coherent, ?_⟩
  intro g fuel n s kn h
  unfold retrieve retrieveWith
  rw [h]

/-- Witness for C2 at the concrete C1 scenario. -/
theorem claim2_cse_witness :
    wfB c1a = true ∧ allRegB c1a = true ∧ 4 < c1a.size ∧
    (∃ k st1,
      ltree_to_dask_rec c1a genId c1a.size 4 ⟨[], [], 0⟩ = .ok (k, st1) ∧
      (st1.dask.map Prod.fst).Nodup ∧
      (∀ n kn, alook n st1.scope = some kn → EntryCoherent c1a st1 n kn) ∧
      (∀ g fuel n s kn, alook n s.scope = some kn →
        retrieve c1a g fuel n s = .ok (kn, s))) := by
  have hw : c1a.Wf := wf_of_wfB rfl
  exact ⟨rfl, rfl, by decide,
    claim2_cse c1a 4 hw (regFrom_of_allRegB hw (by decide) rfl) (by decide)⟩

/-- Claim C3, amended: the keyword-pair sequence stored in an `Apply`
descriptor carries the keyword names of the source mapping in its
iteration (insertion) order — no canonical reordering happens. -/
theorem claim3_amended (a : Arena) (root f : Nat) (args : List Nat)
    (kwargs : List (String × Nat)) (hw : a.Wf) (hreg : RegFrom a root)
    (hroot : root < a.size) (hc : a.get root = some (.Call f args kwargs)) :
    ∃ gr k kf kas kkws,
      ltree_to_dask a root = .ok (gr, k) ∧
      alook k gr = some (.Apply kf kas kkws) ∧
      kkws.map Prod.fst = kwargs.map Prod.fst := by
  obtain ⟨k, st1, hok, hpost⟩ := compile_ok hw hreg hroot
  have hcoh := hpost.coh
  unfold EntryCoherent at hcoh
  rw [hc] at hcoh
  obtain ⟨kf, kas, kkws, h1, _, _, h4⟩ := hcoh
  refine ⟨st1.dask, k, kf, kas, kkws, ?_, h1, forall2_kw_fst h4⟩
  unfold ltree_to_dask ltree_to_daskW
  rw [hok]

/-- Witness for the amended C3 at the concrete scenario `c3a`. -/
theorem claim3_amended_witness :
    wfB c3a = true ∧ allRegB c3a = true ∧ 3 < c3a.size ∧
    c3a.get 3 = some (.Call 0 [] [("b", 1), ("a", 2)]) ∧
    (∃ gr k kf kas kkws,
      ltree_to_dask c3a 3 = .ok (gr, k) ∧
      alook k gr = some (.Apply kf kas kkws) ∧
      kkws.map Prod.fst =
        ([("b", 1), ("a", 2)] : List (String × Nat)).map Prod.fst) := by
  have hw : c3a.Wf := wf_of_wfB rfl
  exact ⟨rfl, rfl, by decide, rfl,
    claim3_amended c3a 3 0 [] [("b", 1), ("a", 2)] hw
      (regFrom_of_allRegB hw (by decide) rfl) (by decide) rfl⟩

/-- Claim C4: in every graph produced on valid input, every key
referenced inside any `Apply` descriptor (callee key, positional
argument keys, keyword argument keys) is present as a top-level entry
of the same graph. -/
theorem claim4_closed_graph (a : Arena) (root : Nat) (hw : a.Wf)
    (hreg : RegFrom a root) (hroot : root < a.size) :
    ∃ gr k, ltree_to_dask a root = .ok (gr, k) ∧ GraphClosed gr := by
  obtain ⟨k, st1, hok, hpost⟩ := compile_ok hw hreg hroot
  refine ⟨st1.dask, k, ?_, closed_of_inv hpost.inv⟩
  unfold ltree_to_dask ltree_to_daskW
  rw [hok]

/-- Witness for C4 at the concrete C1 scenario. -/
theorem claim4_closed_graph_witness :
    wfB c1a = true ∧ allRegB c1a = true ∧ 4 < c1a.size ∧
    (∃ gr k, ltree_to_dask c1a 4 = .ok (gr, k) ∧ GraphClosed gr) := by
  have hw : c1a.Wf := wf_of_wfB rfl
  exact ⟨rfl, rfl, by decide,
    claim4_closed_graph c1a 4 hw (regFrom_of_allRegB hw (by decide) rfl)
      (by decide)⟩

/-- Claim C6: determinism up to key renaming.  Two compilations of the
same node DAG under any two injective key supplies (two fresh uuid
streams) both succeed and produce graphs of equal entry count related
entry-by-entry by a key renaming that is injective on the first graph's
keys, with the root keys corresponding under the same renaming.  Since
the renaming acts only inside `Descr` via `relabelDescr`, shapes
(Literal versus Apply, arities, keyword names and their order) and the
dependency structure are preserved exactly. -/
theorem claim6_determinism (a : Arena) (root : Nat) (g1 g2 : Nat → Key)
    (hw : a.Wf) (hreg : RegFrom a root) (hroot : root < a.size)
    (h1 : Function.Injective g1) (h2 : Function.Injective g2) :
    ∃ gr1 k1 gr2 k2,
      ltree_to_daskW g1 a root = .ok (gr1, k1) ∧
      ltree_to_daskW g2 a root = .ok (gr2, k2) ∧
      gr1.length = gr2.length ∧
      ∃ pi : Key → Key, gr2 = relabelGraph pi gr1 ∧ k2 = pi k1 ∧
        Set.InjOn pi {x | x ∈ gr1.map Prod.fst} := by
  obtain ⟨k, st1, hok, _⟩ := compile_ok hw hreg hroot
  have hd : ltree_to_dask a root = .ok (st1.dask, k) := by
    unfold ltree_to_dask ltree_to_daskW
    rw [hok]
  have e1 := driver_relabel g1 a root
  have e2 := driver_relabel g2 a root
  rw [hd] at e1 e2
  dsimp only at e1 e2
  refine ⟨relabelGraph g1 st1.dask, g1 k, relabelGraph g2 st1.dask, g2 k,
    e1, e2, by simp [relabelGraph], ?_⟩
  classical
  refine ⟨fun x => g2 (Function.invFun g1 x), ?_, ?_, ?_⟩
  · rw [relabelGraph_comp]
    refine relabelGraph_congr (fun x => ?_) st1.dask
    show g2 x = g2 (Function.invFun g1 (g1 x))
    rw [Function.leftInverse_invFun h1 x]
  · show g2 k = g2 (Function.invFun g1 (g1 k))
    rw [Function.leftInverse_invFun h1 k]
  · intro x hx y hy hxy
    rw [Set.mem_setOf_eq, relabelGraph_keys] at hx hy
    obtain ⟨x0, _, rfl⟩ := List.mem_map.mp hx
    obtain ⟨y0, _, rfl⟩ := List.mem_map.mp hy
    dsimp only at hxy
    rw [Function.leftInverse_invFun h1 x0,
      Function.leftInverse_invFun h1 y0] at hxy
    rw [h2 hxy]

/-- Witness for C6 at the concrete C1 scenario with the supplies
`genId` and `fun i => i + 7`. -/
theorem claim6_determinism_witness :
    wfB c1a = true ∧ allRegB c1a = true ∧ 4 < c1a.size ∧
    (∃ gr1 k1 gr2 k2,
      ltree_to_daskW genId c1a 4 = .ok (gr1, k1) ∧
      ltree_to_daskW (fun i => i + 7) c1a 4 = .ok (gr2, k2) ∧
      gr1.length = gr2.length ∧
      ∃ pi : Key → Key, gr2 = relabelGraph pi gr1 ∧ k2 = pi k1 ∧
        Set.InjOn pi {x | x ∈ gr1.map Prod.fst}) := by
  have hw : c1a.Wf := wf_of_wfB rfl
  exact ⟨rfl, rfl, by decide,
    claim6_determinism c1a 4 genId (fun i => i + 7) hw
      (regFrom_of_allRegB hw (by decide) rfl) (by decide)
      (fun x y h => h) (fun x y h => Nat.add_right_cancel h)⟩

/-- Claim C7: on every finite acyclic input whose reachable nodes all
have registered rules, the compilation terminates successfully — the
driver's fuel `a.size` is sufficient and no error occurs. -/
theorem claim7_terminates (a : Arena) (root : Nat) (hw : a.Wf)
    (hreg : RegFrom a root) (hroot : root < a.size) :
    ∃ gr k, ltree_to_dask a root = .ok (gr, k) := by
  obtain ⟨k, st1, hok, _⟩ := compile_ok hw hreg hroot
  refine ⟨st1.dask, k, ?_⟩
  unfold ltree_to_dask ltree_to_daskW
  rw [hok]

/-- Witness for C7 at the concrete C1 scenario. -/
theorem claim7_terminates_witness :
    wfB c1a = true ∧ allRegB c1a = true ∧ 4 < c1a.size ∧
    (∃ gr k, ltree_to_dask c1a 4 = .ok (gr, k)) := by
  have hw : c1a.Wf := wf_of_wfB rfl
  exact ⟨rfl, rfl, by decide,
    claim7_terminates c1a 4 hw (regFrom_of_allRegB hw (by decide) rfl)
      (by decide)⟩

/-- Claim C8: `compile` fails with the unsupported-node-kind error
(the `singledispatch` fallback) exactly when some node reachable from
the root has no registered rule, and the error reaches the caller of
`ltree_to_dask` unchanged — every error the driver returns is an
`unsupportedNodeKind` blamed on a reachable unregistered node, and if
such a node exists the driver does return that error. -/
theorem claim8_unsupported (a : Arena) (root : Nat) (hw : a.Wf)
    (hroot : root < a.size) :
    (∀ e, ltree_to_dask a root = .error e →
      ∃ m, e = .unsupportedNodeKind m ∧ Reachable a root m ∧
        registeredAt a m = false) ∧
    ((∃ m, Reachable a root m ∧ registeredAt a m = false) →
      ∃ m, ltree_to_dask a root = .error (.unsupportedNodeKind m) ∧
        Reachable a root m ∧ registeredAt a m = false) := by
  have hcl := rec_class hw root a.size ⟨[], [], 0⟩ (by omega)
  constructor
  · intro e he
    unfold ltree_to_dask ltree_to_daskW at he
    rcases hcl with ⟨k, st1, hok⟩ | ⟨m, herr, hreach, hm⟩
    · rw [hok] at he
      exact Except.noConfusion he
    · rw [herr] at he
      dsimp only at he
      injection he with he
      exact ⟨m, he.symm, hreach, hm⟩
  · intro hex
    obtain ⟨m0, hr0, hm0⟩ := hex
    rcases hcl with ⟨k, st1, hok⟩ | ⟨m, herr, hreach, hm⟩
    · exfalso
      have hpost := go_post hw a.size root ⟨[], [], 0⟩ k st1 hok
        (stInv_init a) rfl
      rw [hpost.reg m0 hr0] at hm0
      exact Bool.noConfusion hm0
    · refine ⟨m, ?_, hreach, hm⟩
      unfold ltree_to_dask ltree_to_daskW
      rw [herr]

/-- Witness for C8 at the concrete scenario `c8a` (an invocation of a
node with no registered rule). -/
theorem claim8_unsupported_witness :
    wfB c8a = true ∧ 1 < c8a.size ∧
    ((∀ e, ltree_to_dask c8a 1 = .error e →
      ∃ m, e = .unsupportedNodeKind m ∧ Reachable c8a 1 m ∧
        registeredAt c8a m = false) ∧
    ((∃ m, Reachable c8a 1 m ∧ registeredAt c8a m = false) →
      ∃ m, ltree_to_dask c8a 1 = .error (.unsupportedNodeKind m) ∧
        Reachable c8a 1 m ∧ registeredAt c8a m = false)) := by
  have hw : c8a.Wf := wf_of_wfB rfl
  exact ⟨rfl, by decide, claim8_unsupported c8a 1 hw (by decide)⟩

/-- Claim C10: the Terminal (`Normal`) rule's memo-hit branch is
unreachable and the rule never writes to scope.  (1) `retrieve` returns
the existing key, state untouched, whenever the node is memoized, so
(2) the dispatch rule is only ever entered on a scope miss, receiving
the very same state; (3) under a scope miss the `Normal` rule always
allocates a fresh key, appends exactly one new graph entry, and leaves
scope unchanged (the hit branch is not taken); and (4) the driver calls
the dispatch directly with a brand-new empty scope, on which every
lookup misses. -/
theorem claim10_normal_rule (a : Arena) (g : Nat → Key) :
    (∀ fuel nid st k, alook nid st.scope = some k →
        retrieve a g fuel nid st = .ok (k, st)) ∧
    (∀ fuel nid st, alook nid st.scope = none →
        (∀ e, ltree_to_dask_rec a g fuel nid st = .error e →
          retrieve a g fuel nid st = .error e) ∧
        (∀ k s1, ltree_to_dask_rec a g fuel nid st = .ok (k, s1) →
          retrieve a g fuel nid st =
            .ok (k, ⟨s1.dask, (nid, k) :: s1.scope, s1.counter⟩))) ∧
    (∀ fuel nid st v, a.get nid = some (.Normal v) →
        alook nid st.scope = none →
        ltree_to_dask_rec a g (fuel + 1) nid st =
          .ok (g st.counter,
            ⟨st.dask ++ [(g st.counter, .Literal v)], st.scope,
             st.counter + 1⟩)) ∧
    (∀ root, ltree_to_daskW g a root =
        match ltree_to_dask_rec a g a.size root ⟨[], [], 0⟩ with
        | .error e => .error e
        | .ok (k, st) => .ok (st.dask, k)) := by
  refine ⟨?_, ?_, ?_, fun root => rfl⟩
  · intro fuel nid st k h
    unfold retrieve retrieveWith
    rw [h]
  · intro fuel nid st h
    constructor
    · intro e he
      unfold retrieve retrieveWith
      rw [h]
      dsimp only
      rw [he]
    · intro k s1 hk
      unfold retrieve retrieveWith
      rw [h]
      dsimp only
      rw [hk]
  · intro fuel nid st v hv h
    rw [rec_succ_eq, hv]
    dsimp only
    rw [h]

/-- Witness for C10: the `Normal` rule on node 1 of the C1 scenario,
entered with the empty scope, allocates key 0, appends one `Literal`
entry and leaves the scope empty. -/
theorem claim10_normal_rule_witness :
    c1a.get 1 = some (.Normal (.pyInt 1)) ∧
    alook 1 ([] : Scope) = none ∧
    ltree_to_dask_rec c1a genId 1 1 ⟨[], [], 0⟩ =
      .ok (0, ⟨[(0, .Literal (.pyInt 1))], [], 1⟩) :=
  ⟨rfl, rfl,
    (claim10_normal_rule c1a genId).2.2.1 0 1 ⟨[], [], 0⟩ (.pyInt 1) rfl rfl⟩

/-- Claim C9, amended: `register_get(get)` returns `get` unchanged and
installs it as the class attribute `autodaskthunk._get`; every
subsequent `autodaskthunk.__strict__` evaluation reads that ambient
class state, so the override is process-wide, not injected per
evaluation. -/
theorem claim9_amended :
    ∀ (cls : AutodaskCls) (g : GetFn),
      (register_get cls g).2 = g ∧
      (register_get cls g).1.getf = g ∧
      ∀ (a : Arena) (root : Nat),
        thunkStrict (register_get cls g).1 a root = thunkStrict ⟨g⟩ a root :=
  fun _ _ => ⟨rfl, rfl, fun _ _ => rfl⟩

end Daisy
